import Mathlib

/-!
Verification development for the MergeTree key-condition engine declared in
`dbms/src/Storages/MergeTree/KeyCondition.h`.

The header declares `FieldWithInfinity`, the reverse-Polish predicate node
`KeyCondition::RPNElement`, the three read-only evaluation modes
(`mayBeTrueInRange`, `mayBeTrueAfter`, `mayBeTrueInParallelogram`),
`applyMonotonicFunctionsChainToRange` and `addCondition`.  The member
function bodies live in a translation unit that is not part of the available
source tree, so every operational definition below is modelled from the
specification of the engine; the doc comment of each such definition says
so.  Column values are modelled as integers.
-/

namespace DB

/-- `FieldWithInfinity` from the header: a column value together with the
two infinity sentinels (`MINUS_INFINITY`, `NORMAL`, `PLUS_INFINITY`).
Values are modelled as integers. -/
inductive FieldWithInfinity where
  | minusInfinity
  | normal (v : Int)
  | plusInfinity
deriving DecidableEq, Repr

/-- Modelled from the spec: the total order of the extended value domain.
`MinusInfinity < any normal value < PlusInfinity`; normal values compare by
the underlying order; equal sentinels are not less than each other. -/
def fwiLT : FieldWithInfinity → FieldWithInfinity → Bool
  | .minusInfinity, .minusInfinity => false
  | .minusInfinity, _ => true
  | .normal _, .minusInfinity => false
  | .normal v, .normal w => decide (v < w)
  | .normal _, .plusInfinity => true
  | .plusInfinity, _ => false

/-- Whether `x` satisfies the lower bound `bound` with inclusion flag `inc`. -/
def lowOk (bound : FieldWithInfinity) (inc : Bool) (x : Int) : Bool :=
  match bound with
  | .minusInfinity => true
  | .normal a => if inc then decide (a ≤ x) else decide (a < x)
  | .plusInfinity => false

/-- Whether `x` satisfies the upper bound `bound` with inclusion flag `inc`. -/
def highOk (bound : FieldWithInfinity) (inc : Bool) (x : Int) : Bool :=
  match bound with
  | .minusInfinity => false
  | .normal b => if inc then decide (x ≤ b) else decide (x < b)
  | .plusInfinity => true

/-- Modelled from the spec: the `Range` (Interval) of `FieldRange.h` — a
bound pair over the extended value domain, each side independently flagged
open or closed; an unbounded side is the matching infinity sentinel.  The
default value is the fully unbounded range. -/
structure Range where
  left : FieldWithInfinity := .minusInfinity
  right : FieldWithInfinity := .plusInfinity
  left_included : Bool := false
  right_included : Bool := false
deriving DecidableEq, Repr

/-- The fully unbounded range (default-constructed `Range()`). -/
def fullRange : Range := {}

/-- Closed interval `[a, b]`. -/
def boundedRange (a b : Int) : Range :=
  { left := .normal a, right := .normal b, left_included := true, right_included := true }

/-- Single-point range `[v, v]` (`Range(field)` in the source). -/
def pointRange (v : Int) : Range := boundedRange v v

/-- Left-closed, right-unbounded range `[a, +inf)`. -/
def leftBoundedRange (a : Int) : Range :=
  { left := .normal a, right := .plusInfinity, left_included := true, right_included := false }

/-- Membership of a (normal) value in a range. -/
def Range.containsValue (r : Range) (x : Int) : Bool :=
  lowOk r.left r.left_included x && highOk r.right r.right_included x

/-- Modelled from the spec: the intersection test between a node's stored
range and a column interval — true unless one range lies entirely to one
side of the other at the level of bounds. -/
def Range.intersectsRange (r1 r2 : Range) : Bool :=
  if fwiLT r2.right r1.left then false
  else if r2.right = r1.left ∧ (r1.left_included = false ∨ r2.right_included = false) then false
  else if fwiLT r1.right r2.left then false
  else if r1.right = r2.left ∧ (r2.left_included = false ∨ r1.right_included = false) then false
  else true

/-- Modelled from the spec: the containment test `r1 ⊇ r2` at the level of
bounds, used by the `NotInRange` / `NotInSet` "not all values match"
evaluation. -/
def Range.containsRange (r1 r2 : Range) : Bool :=
  if fwiLT r2.left r1.left then false
  else if r2.left = r1.left ∧ r2.left_included = true ∧ r1.left_included = false then false
  else if fwiLT r1.right r2.right then false
  else if r2.right = r1.right ∧ r2.right_included = true ∧ r1.right_included = false then false
  else true

/-- A well-formed closed range shape: each side is either an infinity
sentinel with the (ignored) inclusion flag cleared, or a closed normal
bound; and the range is non-empty.  Every per-column interval derived from
key tuples has this shape. -/
def Range.cwf (r : Range) : Bool :=
  (match r.left with
   | .minusInfinity => !r.left_included
   | .normal _ => r.left_included
   | .plusInfinity => false)
  && (match r.right with
   | .minusInfinity => false
   | .normal _ => r.right_included
   | .plusInfinity => !r.right_included)
  && (match r.left, r.right with
   | .normal a, .normal b => decide (a ≤ b)
   | _, _ => true)

/-- Normal bounds of the range are closed (infinite sides unconstrained). -/
def Range.ClosedSides (r : Range) : Prop :=
  (∀ a : Int, r.left = .normal a → r.left_included = true)
  ∧ (∀ b : Int, r.right = .normal b → r.right_included = true)

/-- Modelled from the spec: whether every value of the interval belongs to
the finite set `s` — the "entirely excluded by the negated condition" test
of the opaque set tester.  An interval with an unbounded side is contained
in a finite set only when it is empty. -/
def Range.subsetOfList (r : Range) (s : List Int) : Bool :=
  match r.left, r.right with
  | .plusInfinity, _ => true
  | _, .minusInfinity => true
  | .normal a, .normal b =>
    let lo := if r.left_included then a else a + 1
    let hi := if r.right_included then b else b - 1
    decide (hi < lo) || (List.range (hi + 1 - lo).toNat).all (fun i => s.contains (lo + (i : Int)))
  | _, _ => false

/-- Result of the external monotonicity oracle
(`monotonicityOnRange(function, arg_type, range)`), per the spec. -/
structure Monotonicity where
  is_monotonic : Bool
  is_positive : Bool
deriving DecidableEq, Repr

/-- One element of a `MonotonicFunctionsChain`: the function itself and the
external oracle answering whether it is monotonic — and in which direction —
on a given input range. -/
structure MonoFunc where
  f : Int → Int
  mono : Range → Monotonicity

/-- The oracle is honest: whenever it reports the function monotonic on a
range, the function is indeed (non-strictly) monotonic in the reported
direction on the values of that range. -/
def MonoFunc.Honest (g : MonoFunc) : Prop :=
  ∀ (r : Range) (x y : Int), (g.mono r).is_monotonic = true →
    r.containsValue x = true → r.containsValue y = true → x ≤ y →
    if (g.mono r).is_positive then g.f x ≤ g.f y else g.f y ≤ g.f x

/-- Apply a function to a bound; infinite bounds stay infinite. -/
def FieldWithInfinity.mapF (f : Int → Int) : FieldWithInfinity → FieldWithInfinity
  | .normal v => .normal (f v)
  | s => s

/-- Flip the sign of an infinity sentinel (normal values unchanged); used
when a decreasing step swaps the two sides of a range. -/
def FieldWithInfinity.flipInf : FieldWithInfinity → FieldWithInfinity
  | .minusInfinity => .plusInfinity
  | .plusInfinity => .minusInfinity
  | .normal v => .normal v

/-- Modelled from the spec: transport a range through one chain element.
Fails when the oracle cannot prove the element monotonic on the range; a
decreasing step swaps low/high together with their inclusion flags. -/
def applyMonoStep (g : MonoFunc) (r : Range) : Option Range :=
  if (g.mono r).is_monotonic = false then none
  else if (g.mono r).is_positive then
    some { left := r.left.mapF g.f, right := r.right.mapF g.f,
           left_included := r.left_included, right_included := r.right_included }
  else
    some { left := (r.right.mapF g.f).flipInf, right := (r.left.mapF g.f).flipInf,
           left_included := r.right_included, right_included := r.left_included }

/-- Modelled from the spec: `KeyCondition::applyMonotonicFunctionsChainToRange`
— apply each chain element's forward image to the interval in the chain's
declared order (from the key outward); returns no result as soon as one
element is not statically monotonic on the interval being transported. -/
def applyMonotonicFunctionsChainToRange (r : Range) : List MonoFunc → Option Range
  | [] => some r
  | g :: rest =>
    match applyMonoStep g r with
    | none => none
    | some r1 => applyMonotonicFunctionsChainToRange r1 rest

/-- The composed function of a chain, applied to a single value (the chain
order is application order from the key outward). -/
def chainApply (chain : List MonoFunc) (x : Int) : Int :=
  match chain with
  | [] => x
  | g :: rest => chainApply rest (g.f x)

/-- `RPNElement::Function` from the header: atoms, logical operators and
constants of the compiled reverse-Polish form. -/
inductive RPNFunction where
  | FUNCTION_IN_RANGE
  | FUNCTION_NOT_IN_RANGE
  | FUNCTION_IN_SET
  | FUNCTION_NOT_IN_SET
  | FUNCTION_UNKNOWN
  | FUNCTION_NOT
  | FUNCTION_AND
  | FUNCTION_OR
  | ALWAYS_FALSE
  | ALWAYS_TRUE
deriving DecidableEq, Repr

/-- `KeyCondition::RPNElement` from the header: the function tag (defaulting
to `FUNCTION_UNKNOWN`, as in the source), the stored range and key column
for the range atoms, the set for the set atoms (modelled as the finite list
of its elements), and the chain of possibly-monotonic functions wrapping
the key column. -/
structure RPNElement where
  function : RPNFunction := .FUNCTION_UNKNOWN
  range : Range := fullRange
  key_column : Nat := 0
  set_index : List Int := []
  monotonic_functions_chain : List MonoFunc := []

/-- The ternary-like stack value of the evaluator: whether the subformula
can be true and whether it can be false somewhere in the range. -/
structure BoolMask where
  can_be_true : Bool
  can_be_false : Bool
deriving DecidableEq, Repr

/-- Negation swaps the two components of a mask. -/
def BoolMask.swapMask (m : BoolMask) : BoolMask :=
  { can_be_true := m.can_be_false, can_be_false := m.can_be_true }

/-- The column interval an atom is evaluated against: the parallelogram
entry of its key column (fully unbounded beyond the supplied length),
transported through the atom's monotonic functions chain. -/
def atomAppliedRange (e : RPNElement) (par : List Range) : Option Range :=
  applyMonotonicFunctionsChainToRange (par.getD e.key_column fullRange)
    e.monotonic_functions_chain

/-- Modelled from the spec: the mask pushed by an atomic node.  A failed
chain transport degrades to the Unknown outcome; `InRange` pushes "some
value can match / some value can fail to be in the stored range";
`NotInRange` is the swapped mask ("not all values match"); the set atoms
delegate to the finite-set overlap and containment tests. -/
def atomMask (e : RPNElement) (par : List Range) : BoolMask :=
  match atomAppliedRange e par with
  | none => { can_be_true := true, can_be_false := true }
  | some t =>
    match e.function with
    | .FUNCTION_IN_RANGE =>
      { can_be_true := e.range.intersectsRange t, can_be_false := !(e.range.containsRange t) }
    | .FUNCTION_NOT_IN_RANGE =>
      { can_be_true := !(e.range.containsRange t), can_be_false := e.range.intersectsRange t }
    | .FUNCTION_IN_SET =>
      { can_be_true := e.set_index.any (fun w => t.containsValue w),
        can_be_false := !(t.subsetOfList e.set_index) }
    | .FUNCTION_NOT_IN_SET =>
      { can_be_true := !(t.subsetOfList e.set_index),
        can_be_false := e.set_index.any (fun w => t.containsValue w) }
    | _ => { can_be_true := true, can_be_false := true }

/-- The truth value of one atomic node on a concrete row: the composed
chain is applied to the row's key-column value and the atom's own test is
evaluated on the result. -/
def rowAtomTruth (row : List Int) (e : RPNElement) : Bool :=
  let v := chainApply e.monotonic_functions_chain (row.getD e.key_column 0)
  match e.function with
  | .FUNCTION_IN_RANGE => e.range.containsValue v
  | .FUNCTION_NOT_IN_RANGE => !(e.range.containsValue v)
  | .FUNCTION_IN_SET => e.set_index.contains v
  | .FUNCTION_NOT_IN_SET => !(e.set_index.contains v)
  | _ => true

/-- Modelled from the spec: one step of the evaluator's stack machine over
masks.  `Unknown` pushes the possibly-true/possibly-false mask, the
constants push their masks, atoms push `atomMask`, `Not` swaps the top
mask, `And`/`Or` combine the two top masks componentwise.  A stack
underflow (malformed RPN, impossible for compiler output) empties the
stack. -/
def maskStep (par : List Range) (st : List BoolMask) (e : RPNElement) : List BoolMask :=
  match e.function with
  | .FUNCTION_UNKNOWN => { can_be_true := true, can_be_false := true } :: st
  | .ALWAYS_TRUE => { can_be_true := true, can_be_false := false } :: st
  | .ALWAYS_FALSE => { can_be_true := false, can_be_false := true } :: st
  | .FUNCTION_IN_RANGE => atomMask e par :: st
  | .FUNCTION_NOT_IN_RANGE => atomMask e par :: st
  | .FUNCTION_IN_SET => atomMask e par :: st
  | .FUNCTION_NOT_IN_SET => atomMask e par :: st
  | .FUNCTION_NOT =>
    match st with
    | m :: rest => m.swapMask :: rest
    | [] => []
  | .FUNCTION_AND =>
    match st with
    | m1 :: m2 :: rest =>
      { can_be_true := m1.can_be_true && m2.can_be_true,
        can_be_false := m1.can_be_false || m2.can_be_false } :: rest
    | _ => []
  | .FUNCTION_OR =>
    match st with
    | m1 :: m2 :: rest =>
      { can_be_true := m1.can_be_true || m2.can_be_true,
        can_be_false := m1.can_be_false && m2.can_be_false } :: rest
    | _ => []

/-- The row-level (ghost) stack machine: same shape as `maskStep`, but over
plain truth values on one concrete row; the valuation `u` gives the truth
value of the `i`-th node when it is the Unknown atom. -/
def rowStep (row : List Int) (u : Nat → Bool) (st : List Bool) (i : Nat) (e : RPNElement) :
    List Bool :=
  match e.function with
  | .FUNCTION_UNKNOWN => u i :: st
  | .ALWAYS_TRUE => true :: st
  | .ALWAYS_FALSE => false :: st
  | .FUNCTION_IN_RANGE => rowAtomTruth row e :: st
  | .FUNCTION_NOT_IN_RANGE => rowAtomTruth row e :: st
  | .FUNCTION_IN_SET => rowAtomTruth row e :: st
  | .FUNCTION_NOT_IN_SET => rowAtomTruth row e :: st
  | .FUNCTION_NOT =>
    match st with
    | b :: rest => (!b) :: rest
    | [] => []
  | .FUNCTION_AND =>
    match st with
    | b1 :: b2 :: rest => (b1 && b2) :: rest
    | _ => []
  | .FUNCTION_OR =>
    match st with
    | b1 :: b2 :: rest => (b1 || b2) :: rest
    | _ => []

/-- Run the mask machine over the whole RPN sequence. -/
def maskEvalAux (par : List Range) : List BoolMask → List RPNElement → List BoolMask
  | st, [] => st
  | st, e :: rest => maskEvalAux par (maskStep par st e) rest

/-- Run the row-level machine over the whole RPN sequence, numbering the
nodes from `i`. -/
def rowEvalAux (row : List Int) (u : Nat → Bool) : Nat → List Bool → List RPNElement → List Bool
  | _, st, [] => st
  | i, st, e :: rest => rowEvalAux row u (i + 1) (rowStep row u st i e) rest

/-- Modelled from the spec: the final result of one evaluation — the
`can_be_true` component of the single remaining stack value (a malformed
stack degrades to possibly-true). -/
def evalResult (rpn : List RPNElement) (par : List Range) : Bool :=
  match maskEvalAux par [] rpn with
  | [m] => m.can_be_true
  | _ => true

/-- The truth value of the compiled predicate on one concrete row (with the
valuation `u` for Unknown atoms). -/
def rowEvalResult (rpn : List RPNElement) (u : Nat → Bool) (row : List Int) : Bool :=
  match rowEvalAux row u 0 [] rpn with
  | [b] => b
  | _ => true

/-- Lexicographic comparison of two equal-length key tuples. -/
def lexLe : List Int → List Int → Bool
  | [], _ => true
  | _ :: _, [] => false
  | a :: as, b :: bs => if a < b then true else if a = b then lexLe as bs else false

/-- The first position at which two key tuples differ (their common length
when they agree everywhere). -/
def firstDiff : List Int → List Int → Nat
  | l :: ls, r :: rs => if l = r then firstDiff ls rs + 1 else 0
  | _, _ => 0

/-- Modelled from the spec: derive the per-column intervals from the two
key tuples of a bounded range.  Columns before the first differing position
are pinned to their single value; the first differing position gets the
closed interval between the two bounds; every later column is fully
unbounded. -/
def buildKeyRanges : List Int → List Int → List Range
  | l :: ls, r :: rs =>
    if l = r then pointRange l :: buildKeyRanges ls rs
    else boundedRange l r :: List.replicate ls.length fullRange
  | _, _ => []

/-- Modelled from the spec: derive the per-column intervals of a
semi-infinite (right-unbounded) range: the first column is bounded below by
the left key and open-ended above, every later column is fully unbounded. -/
def buildKeyRangesAfter : List Int → List Range
  | [] => []
  | l :: ls => leftBoundedRange l :: List.replicate ls.length fullRange

/-- The compiled condition: the immutable RPN sequence plus the ordered
key-column list (a column's ordinal is its position in that list). -/
structure KeyCondition where
  rpn : List RPNElement
  key_columns : List String

/-- Modelled from the spec: `KeyCondition::mayBeTrueInRange` — derive the
per-column intervals from the two key tuples (truncated to
`used_key_size`) and run the mask machine. -/
def KeyCondition.mayBeTrueInRange (kc : KeyCondition) (used_key_size : Nat)
    (left_key right_key : List Int) : Bool :=
  evalResult kc.rpn (buildKeyRanges (left_key.take used_key_size) (right_key.take used_key_size))

/-- Modelled from the spec: `KeyCondition::mayBeTrueAfter` — the
right-unbounded evaluation mode. -/
def KeyCondition.mayBeTrueAfter (kc : KeyCondition) (used_key_size : Nat)
    (left_key : List Int) : Bool :=
  evalResult kc.rpn (buildKeyRangesAfter (left_key.take used_key_size))

/-- Modelled from the spec: `KeyCondition::mayBeTrueInParallelogram` — the
caller supplies one independent interval per key column. -/
def KeyCondition.mayBeTrueInParallelogram (kc : KeyCondition) (parallelogram : List Range) :
    Bool :=
  evalResult kc.rpn parallelogram

/-- The ordinal of a column inside the key, when it is a key column. -/
def keyIndexOf (keys : List String) (column : String) : Option Nat :=
  List.findIdx? (fun c => decide (c = column)) keys

/-- The `FUNCTION_NOT` connective node. -/
def notElem : RPNElement := { function := .FUNCTION_NOT }

/-- The `FUNCTION_AND` connective node. -/
def andElem : RPNElement := { function := .FUNCTION_AND }

/-- The `FUNCTION_OR` connective node. -/
def orElem : RPNElement := { function := .FUNCTION_OR }

/-- The Unknown atom (a default-constructed `RPNElement`, whose function
tag defaults to `FUNCTION_UNKNOWN` as in the header). -/
def unknownElem : RPNElement := {}

/-- Modelled from the spec: `KeyCondition::addCondition` — a no-op
returning false when the column is not part of the key; otherwise appends
an `InRange` atom on the column's ordinal conjoined (by a trailing `And`)
with whatever was already compiled, and returns true. -/
def KeyCondition.addCondition (kc : KeyCondition) (column : String) (r : Range) :
    KeyCondition × Bool :=
  match keyIndexOf kc.key_columns column with
  | none => (kc, false)
  | some i =>
    ({ kc with
        rpn := kc.rpn ++ [{ function := .FUNCTION_IN_RANGE, range := r, key_column := i }, andElem] },
      true)

/-- The source expression tree, per the spec's tagged-variant description:
function call, identifier, literal or tuple. -/
inductive AST where
  | func (name : String) (args : List AST)
  | ident (name : String)
  | lit (v : Int)
  | tup (elems : List AST)

/-- The comparison operator names the compiler recognizes as atoms. -/
def comparisonOps : List String :=
  ["equals", "notEquals", "less", "greater", "lessOrEquals", "greaterOrEquals"]

/-- Modelled from the spec: build the range atom for a comparison between
the key column `keyIdx` and the constant `c`; `flipped` means the constant
stood on the left of the operator, mirroring the inequality. -/
def comparisonAtom (name : String) (keyIdx : Nat) (c : Int) (flipped : Bool) :
    Option RPNElement :=
  let mk : RPNFunction → Range → Option RPNElement := fun fn r =>
    some { function := fn, range := r, key_column := keyIdx }
  if name = "equals" then mk .FUNCTION_IN_RANGE (pointRange c)
  else if name = "notEquals" then mk .FUNCTION_NOT_IN_RANGE (pointRange c)
  else if name = "less" then
    if flipped then mk .FUNCTION_IN_RANGE { left := .normal c, left_included := false }
    else mk .FUNCTION_IN_RANGE { right := .normal c, right_included := false }
  else if name = "greater" then
    if flipped then mk .FUNCTION_IN_RANGE { right := .normal c, right_included := false }
    else mk .FUNCTION_IN_RANGE { left := .normal c, left_included := false }
  else if name = "lessOrEquals" then
    if flipped then mk .FUNCTION_IN_RANGE { left := .normal c, left_included := true }
    else mk .FUNCTION_IN_RANGE { right := .normal c, right_included := true }
  else if name = "greaterOrEquals" then
    if flipped then mk .FUNCTION_IN_RANGE { right := .normal c, right_included := true }
    else mk .FUNCTION_IN_RANGE { left := .normal c, left_included := true }
  else none

/-- Extract the literal values of a tuple of literals (fails otherwise). -/
def litValues : List AST → Option (List Int)
  | [] => some []
  | AST.lit v :: rest => (litValues rest).map (fun vs => v :: vs)
  | _ => none

/-- Modelled from the spec: `KeyCondition::atomFromAST` — recognize a leaf
comparison with the key column on one side and a constant-folding subtree
on the other, or an `in` / `notIn` membership test of a key column against
a tuple of literals.  Anything else — in particular any atom whose column
is not part of the key — is not an atom (`none`). -/
def atomFromAST (fold : AST → Option Int) (keys : List String) : AST → Option RPNElement
  | AST.func name [x, y] =>
    if comparisonOps.contains name then
      match x, fold y with
      | AST.ident col, some c =>
        match keyIndexOf keys col with
        | some i => comparisonAtom name i c false
        | none => none
      | _, _ =>
        match fold x, y with
        | some c, AST.ident col =>
          match keyIndexOf keys col with
          | some i => comparisonAtom name i c true
          | none => none
        | _, _ => none
    else if name = "in" || name = "notIn" then
      match x, y with
      | AST.ident col, AST.tup elems =>
        match keyIndexOf keys col, litValues elems with
        | some i, some vs =>
          some { function := if name = "in" then .FUNCTION_IN_SET else .FUNCTION_NOT_IN_SET,
                 key_column := i, set_index := vs }
        | _, _ => none
      | _, _ => none
    else none
  | _ => none

/-- Modelled from the spec: a subtree that constant-folds compiles to the
matching constant node (`ALWAYS_TRUE` for a non-zero value, `ALWAYS_FALSE`
for zero). -/
def constElem (c : Int) : RPNElement :=
  { function := if c ≠ 0 then .ALWAYS_TRUE else .ALWAYS_FALSE }

/-- Compile a leaf: a recognized atom compiles to itself; anything not
understood degrades to the Unknown atom. -/
def leafCompile (fold : AST → Option Int) (keys : List String) (t : AST) : List RPNElement :=
  match atomFromAST fold keys t with
  | some e => [e]
  | none => [unknownElem]

/-- Whether a node is one of the supported logical connectives with the
right arity (`not` of one argument, `and` / `or` of two). -/
def isConnectiveShape : AST → Bool
  | AST.func name [_] => decide (name = "not")
  | AST.func name [_, _] => decide (name = "and") || decide (name = "or")
  | _ => false

/-- Compile a node that is not handled as a logical connective: a
constant-folding subtree becomes the matching constant node, otherwise the
node compiles as a leaf. -/
def leafOrConst (fold : AST → Option Int) (keys : List String) (t : AST) : List RPNElement :=
  match fold t with
  | some c => [constElem c]
  | none => leafCompile fold keys t

/-- Modelled from the spec: `KeyCondition::traverseAST` — the best-effort,
conservative compilation of an expression tree into the RPN sequence.  A
supported logical connective over a non-constant subtree emits its
compiled children followed by the connective node; every other node
compiles through `leafOrConst` (a constant node when the subtree folds, an
atom when recognized, the Unknown atom otherwise). -/
def traverseAST (fold : AST → Option Int) (keys : List String) : AST → List RPNElement
  | AST.func name [a] =>
    if fold (AST.func name [a]) = none ∧ name = "not"
    then traverseAST fold keys a ++ [notElem]
    else leafOrConst fold keys (AST.func name [a])
  | AST.func name [a, b] =>
    if fold (AST.func name [a, b]) = none ∧ name = "and"
    then traverseAST fold keys a ++ traverseAST fold keys b ++ [andElem]
    else if fold (AST.func name [a, b]) = none ∧ name = "or"
    then traverseAST fold keys a ++ traverseAST fold keys b ++ [orElem]
    else leafOrConst fold keys (AST.func name [a, b])
  | t => leafOrConst fold keys t

/-- The constant-folding oracle used by concrete examples: literal
subtrees fold to their value (an external scalar evaluator in the
source). -/
def litFold : AST → Option Int
  | AST.lit v => some v
  | _ => none

/-! ### Basic interval lemmas -/

theorem fullRange_contains (x : Int) : fullRange.containsValue x = true := rfl

theorem high_low_not_lt {b2 b1 : FieldWithInfinity} {i2 i1 : Bool} {x : Int}
    (h2 : highOk b2 i2 x = true) (h1 : lowOk b1 i1 x = true) : fwiLT b2 b1 = false := by
  cases b2 <;> cases b1 <;> cases i1 <;> cases i2 <;>
    simp_all [highOk, lowOk, fwiLT] <;> omega

theorem high_low_eq_closed {b : FieldWithInfinity} {i2 i1 : Bool} {x : Int}
    (h2 : highOk b i2 x = true) (h1 : lowOk b i1 x = true) : i1 = true ∧ i2 = true := by
  cases b <;> cases i1 <;> cases i2 <;> simp_all [highOk, lowOk] <;> omega

/-- A common value forces the bound-level intersection test to succeed. -/
theorem mem_mem_intersects {r1 r2 : Range} {x : Int}
    (h1 : r1.containsValue x = true) (h2 : r2.containsValue x = true) :
    r1.intersectsRange r2 = true := by
  unfold Range.containsValue at h1 h2
  simp only [Bool.and_eq_true] at h1 h2
  obtain ⟨l1, g1⟩ := h1
  obtain ⟨l2, g2⟩ := h2
  unfold Range.intersectsRange
  split_ifs with c1 c2 c3 c4
  · have := high_low_not_lt g2 l1
    simp_all
  · obtain ⟨he, hf⟩ := c2
    rw [he] at g2
    have := high_low_eq_closed g2 l1
    rcases hf with hf | hf <;> simp_all
  · have := high_low_not_lt g1 l2
    simp_all
  · obtain ⟨he, hf⟩ := c4
    rw [he] at g1
    have := high_low_eq_closed g1 l2
    rcases hf with hf | hf <;> simp_all
  · rfl

theorem low_le_low {b2 b1 : FieldWithInfinity} {i2 i1 : Bool} {x : Int}
    (h2 : lowOk b2 i2 x = true) (hlt : fwiLT b2 b1 = false)
    (heq : b2 = b1 → i2 = true → i1 = true) : lowOk b1 i1 x = true := by
  cases b2 <;> cases b1 <;> cases i1 <;> cases i2 <;>
    simp_all [lowOk, fwiLT] <;> omega

theorem high_le_high {b2 b1 : FieldWithInfinity} {i2 i1 : Bool} {x : Int}
    (h2 : highOk b2 i2 x = true) (hlt : fwiLT b1 b2 = false)
    (heq : b2 = b1 → i2 = true → i1 = true) : highOk b1 i1 x = true := by
  cases b2 <;> cases b1 <;> cases i1 <;> cases i2 <;>
    simp_all [highOk, fwiLT] <;> omega

/-- The bound-level containment test is sound: a contained interval's
values all belong to the containing range. -/
theorem containsRange_sound {r1 r2 : Range} {x : Int}
    (h : r1.containsRange r2 = true) (hx : r2.containsValue x = true) :
    r1.containsValue x = true := by
  unfold Range.containsRange at h
  split_ifs at h with c1 c2 c3 c4
  unfold Range.containsValue at hx ⊢
  simp only [Bool.and_eq_true] at hx ⊢
  refine ⟨low_le_low hx.1 (by simpa using c1) ?_, high_le_high hx.2 (by simpa using c3) ?_⟩
  · intro he hi2
    by_contra hi1
    exact c2 ⟨he, hi2, by simpa using hi1⟩
  · intro he hi2
    by_contra hi1
    exact c4 ⟨he, hi2, by simpa using hi1⟩

/-- The finite-set containment test is sound: if it reports the interval
covered by the set, every value of the interval is an element. -/
theorem subsetOfList_sound {r : Range} {s : List Int} {x : Int}
    (h : r.subsetOfList s = true) (hx : r.containsValue x = true) : s.contains x = true := by
  unfold Range.containsValue at hx
  simp only [Bool.and_eq_true] at hx
  obtain ⟨hl, hh⟩ := hx
  unfold Range.subsetOfList at h
  rcases hrl : r.left with _ | a | _ <;> rcases hrr : r.right with _ | b | _ <;>
      rw [hrl] at hl h <;> rw [hrr] at hh h <;>
      simp [lowOk, highOk] at hl hh h
  -- only the normal/normal shape remains
  cases hif : r.left_included <;> cases hjf : r.right_included <;>
      rw [hif] at hl h <;> rw [hjf] at hh h <;> simp at hl hh h
  all_goals
    rcases h with h | h
  case' inl => omega
  case' inl => omega
  case' inl => omega
  case' inl => omega
  all_goals
    first
    | (have hp := h (x - a).toNat (by omega)
       have hxa : (a + ((x - a).toNat : Int)) = x := by omega
       rw [hxa] at hp
       simpa using hp)
    | (have hp := h (x - (a + 1)).toNat (by omega)
       have hxa : ((a + 1) + ((x - (a + 1)).toNat : Int)) = x := by omega
       rw [hxa] at hp
       simpa using hp)

/-- Shape analysis of a well-formed closed range: each side is a cleared
sentinel or a closed normal bound, and the two bounds are ordered. -/
theorem Range.cwf_cases {r : Range} (h : r.cwf = true) :
    ((r.left = FieldWithInfinity.minusInfinity ∧ r.left_included = false) ∨
      ∃ a, r.left = FieldWithInfinity.normal a ∧ r.left_included = true)
    ∧ ((r.right = FieldWithInfinity.plusInfinity ∧ r.right_included = false) ∨
      ∃ b, r.right = FieldWithInfinity.normal b ∧ r.right_included = true)
    ∧ fwiLT r.right r.left = false := by
  unfold Range.cwf at h
  rcases hl : r.left with _ | a | _ <;> rcases hr : r.right with _ | b | _ <;>
    rw [hl, hr] at h <;> simp_all [fwiLT] <;> omega

/-- On well-formed closed ranges the bound-level intersection test is
exact: success yields a common value. -/
theorem intersectsRange_exact {r1 r2 : Range} (h1 : r1.cwf = true) (h2 : r2.cwf = true)
    (h : r1.intersectsRange r2 = true) :
    ∃ x : Int, r1.containsValue x = true ∧ r2.containsValue x = true := by
  obtain ⟨hL1, hR1, hO1⟩ := Range.cwf_cases h1
  obtain ⟨hL2, hR2, hO2⟩ := Range.cwf_cases h2
  unfold Range.intersectsRange at h
  split_ifs at h with c1 c2 c3 c4 <;> try simp at h
  rcases hL1 with ⟨e1, f1⟩ | ⟨a1, e1, f1⟩ <;>
    rcases hR1 with ⟨g1, k1⟩ | ⟨b1, g1, k1⟩ <;>
    rcases hL2 with ⟨e2, f2⟩ | ⟨a2, e2, f2⟩ <;>
    rcases hR2 with ⟨g2, k2⟩ | ⟨b2, g2, k2⟩ <;>
    simp [e1, g1, e2, g2, fwiLT] at c1 c3 hO1 hO2 <;>
    first
    | (refine ⟨max a1 a2, ?_, ?_⟩ <;>
        simp [Range.containsValue, lowOk, highOk, e1, f1, g1, k1, e2, f2, g2, k2] <;> omega)
    | (refine ⟨a1, ?_, ?_⟩ <;>
        simp [Range.containsValue, lowOk, highOk, e1, f1, g1, k1, e2, f2, g2, k2] <;> omega)
    | (refine ⟨a2, ?_, ?_⟩ <;>
        simp [Range.containsValue, lowOk, highOk, e1, f1, g1, k1, e2, f2, g2, k2] <;> omega)
    | (refine ⟨min b1 b2, ?_, ?_⟩ <;>
        simp [Range.containsValue, lowOk, highOk, e1, f1, g1, k1, e2, f2, g2, k2] <;> omega)
    | (refine ⟨b1, ?_, ?_⟩ <;>
        simp [Range.containsValue, lowOk, highOk, e1, f1, g1, k1, e2, f2, g2, k2] <;> omega)
    | (refine ⟨b2, ?_, ?_⟩ <;>
        simp [Range.containsValue, lowOk, highOk, e1, f1, g1, k1, e2, f2, g2, k2] <;> omega)
    | (refine ⟨0, ?_, ?_⟩ <;>
        simp [Range.containsValue, lowOk, highOk, e1, f1, g1, k1, e2, f2, g2, k2] <;> omega)

/-- On well-formed closed ranges the bound-level containment test is
exact: failure yields a value of the inner range outside the outer one. -/
theorem containsRange_exact {r1 r2 : Range} (h1 : r1.cwf = true) (h2 : r2.cwf = true)
    (h : r1.containsRange r2 = false) :
    ∃ x : Int, r2.containsValue x = true ∧ r1.containsValue x = false := by
  obtain ⟨hL1, hR1, hO1⟩ := Range.cwf_cases h1
  obtain ⟨hL2, hR2, hO2⟩ := Range.cwf_cases h2
  unfold Range.containsRange at h
  split_ifs at h with c1 c2 c3 c4 <;> try simp at h
  · -- the inner range starts strictly to the left of the outer one
    rcases hL1 with ⟨e1, f1⟩ | ⟨a1, e1, f1⟩ <;>
      rcases hL2 with ⟨e2, f2⟩ | ⟨a2, e2, f2⟩ <;>
      rcases hR2 with ⟨g2, k2⟩ | ⟨b2, g2, k2⟩ <;>
      simp [e1, e2, g2, fwiLT] at c1 hO2 <;>
      first
      | (refine ⟨a2, ?_, ?_⟩ <;>
          simp [Range.containsValue, lowOk, highOk, e1, f1, e2, f2, g2, k2] <;> omega)
      | (refine ⟨min (a1 - 1) b2, ?_, ?_⟩ <;>
          simp [Range.containsValue, lowOk, highOk, e1, f1, e2, f2, g2, k2] <;> omega)
      | (refine ⟨a1 - 1, ?_, ?_⟩ <;>
          simp [Range.containsValue, lowOk, highOk, e1, f1, e2, f2, g2, k2] <;> omega)
  · -- equal left bounds with incompatible flags: impossible for closed shapes
    rcases hL1 with ⟨e1, f1⟩ | ⟨a1, e1, f1⟩ <;>
      rcases hL2 with ⟨e2, f2⟩ | ⟨a2, e2, f2⟩ <;>
      simp_all
  · -- the inner range ends strictly to the right of the outer one
    rcases hR1 with ⟨g1, k1⟩ | ⟨b1, g1, k1⟩ <;>
      rcases hL2 with ⟨e2, f2⟩ | ⟨a2, e2, f2⟩ <;>
      rcases hR2 with ⟨g2, k2⟩ | ⟨b2, g2, k2⟩ <;>
      simp [g1, e2, g2, fwiLT] at c3 hO2 <;>
      first
      | (refine ⟨b2, ?_, ?_⟩ <;>
          simp [Range.containsValue, lowOk, highOk, g1, k1, e2, f2, g2, k2] <;> omega)
      | (refine ⟨max (b1 + 1) a2, ?_, ?_⟩ <;>
          simp [Range.containsValue, lowOk, highOk, g1, k1, e2, f2, g2, k2] <;> omega)
      | (refine ⟨b1 + 1, ?_, ?_⟩ <;>
          simp [Range.containsValue, lowOk, highOk, g1, k1, e2, f2, g2, k2] <;> omega)
  · -- equal right bounds with incompatible flags: impossible for closed shapes
    rcases hR1 with ⟨g1, k1⟩ | ⟨b1, g1, k1⟩ <;>
      rcases hR2 with ⟨g2, k2⟩ | ⟨b2, g2, k2⟩ <;>
      simp_all

/-! ### Monotonic chain transport -/

/-- One honest monotonic step maps members of a closed-sided interval into
the transported interval, which is again closed-sided. -/
theorem applyMonoStep_mem {g : MonoFunc} {r r1 : Range} {x : Int}
    (hg : g.Honest) (hc : r.ClosedSides) (hx : r.containsValue x = true)
    (hstep : applyMonoStep g r = some r1) :
    r1.containsValue (g.f x) = true ∧ r1.ClosedSides := by
  obtain ⟨L, R, li, ri⟩ := r
  obtain ⟨hcl, hcr⟩ := hc
  have hmono := hg ⟨L, R, li, ri⟩
  unfold Range.containsValue at hx
  simp only [Bool.and_eq_true] at hx
  obtain ⟨hxl, hxh⟩ := hx
  unfold applyMonoStep at hstep
  split_ifs at hstep with hm hp
  · -- increasing step
    simp only [Bool.not_eq_false] at hm
    simp only [Option.some.injEq] at hstep
    subst hstep
    rcases L with _ | a | _ <;> rcases R with _ | b | _
    · simp [highOk] at hxh
    · -- bounds (-inf, b]
      have hri := hcr b rfl
      subst hri
      have hxb : x ≤ b := by simpa [highOk] using hxh
      have hfb : g.f x ≤ g.f b := by
        have h := hmono x b hm
          (by simp [Range.containsValue, lowOk, highOk] <;> omega)
          (by simp [Range.containsValue, lowOk, highOk]) hxb
        simpa [hp] using h
      constructor
      · simp [Range.containsValue, lowOk, highOk, FieldWithInfinity.mapF]
        omega
      · simp [Range.ClosedSides, FieldWithInfinity.mapF]
    · -- bounds (-inf, +inf)
      constructor
      · simp [Range.containsValue, lowOk, highOk, FieldWithInfinity.mapF]
      · simp [Range.ClosedSides, FieldWithInfinity.mapF]
    · simp [highOk] at hxh
    · -- bounds [a, b]
      have hli := hcl a rfl
      subst hli
      have hri := hcr b rfl
      subst hri
      have hxa : a ≤ x := by simpa [lowOk] using hxl
      have hxb : x ≤ b := by simpa [highOk] using hxh
      have hfa : g.f a ≤ g.f x := by
        have h := hmono a x hm
          (by simp [Range.containsValue, lowOk, highOk] <;> omega)
          (by simp [Range.containsValue, lowOk, highOk] <;> omega) hxa
        simpa [hp] using h
      have hfb : g.f x ≤ g.f b := by
        have h := hmono x b hm
          (by simp [Range.containsValue, lowOk, highOk] <;> omega)
          (by simp [Range.containsValue, lowOk, highOk] <;> omega) hxb
        simpa [hp] using h
      constructor
      · simp [Range.containsValue, lowOk, highOk, FieldWithInfinity.mapF]
        omega
      · simp [Range.ClosedSides, FieldWithInfinity.mapF]
    · -- bounds [a, +inf)
      have hli := hcl a rfl
      subst hli
      have hxa : a ≤ x := by simpa [lowOk] using hxl
      have hfa : g.f a ≤ g.f x := by
        have h := hmono a x hm
          (by simp [Range.containsValue, lowOk, highOk] <;> omega)
          (by simp [Range.containsValue, lowOk, highOk] <;> omega) hxa
        simpa [hp] using h
      constructor
      · simp [Range.containsValue, lowOk, highOk, FieldWithInfinity.mapF]
        omega
      · simp [Range.ClosedSides, FieldWithInfinity.mapF]
    · simp [lowOk] at hxl
    · simp [lowOk] at hxl
    · simp [lowOk] at hxl
  · -- decreasing step
    simp only [Bool.not_eq_false] at hm
    have hp' : (g.mono ⟨L, R, li, ri⟩).is_positive = false := by simpa using hp
    simp only [Option.some.injEq] at hstep
    subst hstep
    rcases L with _ | a | _ <;> rcases R with _ | b | _
    · simp [highOk] at hxh
    · -- bounds (-inf, b]
      have hri := hcr b rfl
      subst hri
      have hxb : x ≤ b := by simpa [highOk] using hxh
      have hfb : g.f b ≤ g.f x := by
        have h := hmono x b hm
          (by simp [Range.containsValue, lowOk, highOk] <;> omega)
          (by simp [Range.containsValue, lowOk, highOk]) hxb
        simpa [hp'] using h
      constructor
      · simp [Range.containsValue, lowOk, highOk, FieldWithInfinity.mapF,
          FieldWithInfinity.flipInf]
        omega
      · simp [Range.ClosedSides, FieldWithInfinity.mapF, FieldWithInfinity.flipInf]
    · -- bounds (-inf, +inf)
      constructor
      · simp [Range.containsValue, lowOk, highOk, FieldWithInfinity.mapF,
          FieldWithInfinity.flipInf]
      · simp [Range.ClosedSides, FieldWithInfinity.mapF, FieldWithInfinity.flipInf]
    · simp [highOk] at hxh
    · -- bounds [a, b]
      have hli := hcl a rfl
      subst hli
      have hri := hcr b rfl
      subst hri
      have hxa : a ≤ x := by simpa [lowOk] using hxl
      have hxb : x ≤ b := by simpa [highOk] using hxh
      have hfa : g.f x ≤ g.f a := by
        have h := hmono a x hm
          (by simp [Range.containsValue, lowOk, highOk] <;> omega)
          (by simp [Range.containsValue, lowOk, highOk] <;> omega) hxa
        simpa [hp'] using h
      have hfb : g.f b ≤ g.f x := by
        have h := hmono x b hm
          (by simp [Range.containsValue, lowOk, highOk] <;> omega)
          (by simp [Range.containsValue, lowOk, highOk] <;> omega) hxb
        simpa [hp'] using h
      constructor
      · simp [Range.containsValue, lowOk, highOk, FieldWithInfinity.mapF,
          FieldWithInfinity.flipInf]
        omega
      · simp [Range.ClosedSides, FieldWithInfinity.mapF, FieldWithInfinity.flipInf]
    · -- bounds [a, +inf)
      have hli := hcl a rfl
      subst hli
      have hxa : a ≤ x := by simpa [lowOk] using hxl
      have hfa : g.f x ≤ g.f a := by
        have h := hmono a x hm
          (by simp [Range.containsValue, lowOk, highOk] <;> omega)
          (by simp [Range.containsValue, lowOk, highOk] <;> omega) hxa
        simpa [hp'] using h
      constructor
      · simp [Range.containsValue, lowOk, highOk, FieldWithInfinity.mapF,
          FieldWithInfinity.flipInf]
        omega
      · simp [Range.ClosedSides, FieldWithInfinity.mapF, FieldWithInfinity.flipInf]
    · simp [lowOk] at hxl
    · simp [lowOk] at hxl
    · simp [lowOk] at hxl

/-- Transport through a whole honest chain: members of a closed-sided
interval land - under the composed function - in the transported
interval. -/
theorem chain_mem {chain : List MonoFunc} {r r' : Range} {x : Int}
    (hh : ∀ g ∈ chain, g.Honest) (hc : r.ClosedSides) (hx : r.containsValue x = true)
    (happ : applyMonotonicFunctionsChainToRange r chain = some r') :
    r'.containsValue (chainApply chain x) = true := by
  induction chain generalizing r x with
  | nil =>
    unfold applyMonotonicFunctionsChainToRange at happ
    simp only [Option.some.injEq] at happ
    subst happ
    simpa [chainApply] using hx
  | cons g rest ih =>
    unfold applyMonotonicFunctionsChainToRange at happ
    cases hstep : applyMonoStep g r with
    | none => rw [hstep] at happ; simp at happ
    | some r1 =>
      rw [hstep] at happ
      have hgh : g.Honest := hh g (by simp)
      obtain ⟨hmem, hcs⟩ := applyMonoStep_mem hgh hc hx hstep
      have := ih (fun g' hg' => hh g' (by simp [hg'])) hcs hmem happ
      simpa [chainApply] using this

/-! ### Derived key ranges -/

theorem replicate_getD_full (n i : Nat) :
    (List.replicate n fullRange).getD i fullRange = fullRange := by
  induction n generalizing i with
  | zero => simp
  | succ m ih =>
    cases i with
    | zero => simp [List.replicate]
    | succ j => simpa [List.replicate] using ih j

theorem fullRange_closedSides : fullRange.ClosedSides := by
  constructor <;> intro v hv <;> simp [fullRange] at hv

theorem boundedRange_closedSides (a b : Int) : (boundedRange a b).ClosedSides := by
  constructor <;> intro v hv <;> rfl

theorem getD_take {xs : List Int} {n i : Nat} (h : i < n) (d : Int) :
    (xs.take n).getD i d = xs.getD i d := by
  induction xs generalizing n i with
  | nil => simp
  | cons x xs ih =>
    cases n with
    | zero => omega
    | succ m =>
      cases i with
      | zero => simp
      | succ j =>
        have hj : j < m := by omega
        have := ih hj
        simpa using this

theorem buildKeyRanges_closedSides (ls rs : List Int) (i : Nat) :
    ((buildKeyRanges ls rs).getD i fullRange).ClosedSides := by
  induction ls generalizing rs i with
  | nil =>
    cases rs <;> simp [buildKeyRanges] <;> exact fullRange_closedSides
  | cons l ls ih =>
    cases rs with
    | nil =>
      simp [buildKeyRanges]
      exact fullRange_closedSides
    | cons r rs =>
      by_cases hlr : l = r
      · cases i with
        | zero =>
          simp [buildKeyRanges, hlr, pointRange]
          exact boundedRange_closedSides r r
        | succ j => simpa [buildKeyRanges, hlr] using ih rs j
      · cases i with
        | zero =>
          simp [buildKeyRanges, hlr]
          exact boundedRange_closedSides l r
        | succ j =>
          have hbd : buildKeyRanges (l :: ls) (r :: rs)
              = boundedRange l r :: List.replicate ls.length fullRange := by
            simp [buildKeyRanges, hlr]
          rw [hbd]
          simp only [List.getD_cons_succ]
          rw [replicate_getD_full]
          exact fullRange_closedSides

/-- Rows between the two key tuples in lexicographic order lie, column by
column, inside the derived per-column intervals. -/
theorem lex_mem_buildKeyRanges (ls rs xs : List Int) (h1 : ls.length = rs.length)
    (h2 : xs.length = ls.length) (ha : lexLe ls xs = true) (hb : lexLe xs rs = true)
    (i : Nat) :
    ((buildKeyRanges ls rs).getD i fullRange).containsValue (xs.getD i 0) = true := by
  induction ls generalizing rs xs i with
  | nil =>
    cases rs with
    | nil =>
      cases xs with
      | nil => exact fullRange_contains _
      | cons x xs => simp at h2
    | cons r rs => simp at h1
  | cons l ls ih =>
    cases rs with
    | nil => simp at h1
    | cons r rs =>
      cases xs with
      | nil => simp at h2
      | cons x xs =>
        have h1p : ls.length = rs.length := by simpa using h1
        have h2p : xs.length = ls.length := by simpa using h2
        unfold lexLe at ha hb
        by_cases hlr : l = r
        · subst hlr
          split_ifs at ha hb <;> first | omega | simp at ha | simp at hb | skip
          · cases i with
            | zero =>
              simp [buildKeyRanges, pointRange, boundedRange, Range.containsValue,
                lowOk, highOk]
              omega
            | succ j => simpa [buildKeyRanges] using ih rs xs h1p h2p ha hb j
        · have hlx : l ≤ x := by
            split_ifs at ha <;> first | omega | simp at ha
          have hxr : x ≤ r := by
            split_ifs at hb <;> first | omega | simp at hb
          cases i with
          | zero =>
            simp [buildKeyRanges, hlr, boundedRange, Range.containsValue, lowOk, highOk]
            omega
          | succ j =>
            have hbd : buildKeyRanges (l :: ls) (r :: rs)
                = boundedRange l r :: List.replicate ls.length fullRange := by
              simp [buildKeyRanges, hlr]
            rw [hbd]
            simp only [List.getD_cons_succ]
            rw [replicate_getD_full]
            exact fullRange_contains _

/-! ### Soundness of the mask machine -/

/-- Relation between a mask and the actual truth value of the subformula
on a row: the truth value is covered by the mask. -/
def maskRowRel (m : BoolMask) (b : Bool) : Prop :=
  (b = true → m.can_be_true = true) ∧ (b = false → m.can_be_false = true)

/-- The parallelogram is made of closed-sided intervals and contains the
row, column by column. -/
def parOk (par : List Range) (row : List Int) : Prop :=
  ∀ col : Nat, (par.getD col fullRange).ClosedSides
    ∧ (par.getD col fullRange).containsValue (row.getD col 0) = true

/-- All monotonicity oracles in the node's chain are honest. -/
def RPNElement.chainsHonest (e : RPNElement) : Prop :=
  ∀ g ∈ e.monotonic_functions_chain, g.Honest

theorem atomMask_rel {e : RPNElement} {par : List Range} {row : List Int}
    (hpar : parOk par row) (hhon : e.chainsHonest)
    (hf : e.function = .FUNCTION_IN_RANGE ∨ e.function = .FUNCTION_NOT_IN_RANGE ∨
      e.function = .FUNCTION_IN_SET ∨ e.function = .FUNCTION_NOT_IN_SET) :
    maskRowRel (atomMask e par) (rowAtomTruth row e) := by
  obtain ⟨hcs, hmem⟩ := hpar e.key_column
  cases htr : atomAppliedRange e par with
  | none =>
    have hmask : atomMask e par = (⟨true, true⟩ : BoolMask) := by
      unfold atomMask
      rw [htr]
    rw [hmask]
    exact ⟨fun _ => rfl, fun _ => rfl⟩
  | some t =>
    have hmt : t.containsValue (chainApply e.monotonic_functions_chain
        (row.getD e.key_column 0)) = true :=
      chain_mem hhon hcs hmem htr
    rcases hf with hf | hf | hf | hf
    · have hmask : atomMask e par
          = (⟨e.range.intersectsRange t, !(e.range.containsRange t)⟩ : BoolMask) := by
        unfold atomMask
        rw [htr, hf]
      have htruth : rowAtomTruth row e = e.range.containsValue
          (chainApply e.monotonic_functions_chain (row.getD e.key_column 0)) := by
        unfold rowAtomTruth
        rw [hf]
      rw [hmask, htruth]
      constructor
      · intro hb
        show e.range.intersectsRange t = true
        exact mem_mem_intersects hb hmt
      · intro hb
        show (!(e.range.containsRange t)) = true
        rw [Bool.not_eq_true']
        by_contra hcf
        simp only [Bool.not_eq_false] at hcf
        have := containsRange_sound hcf hmt
        simp_all
    · have hmask : atomMask e par
          = (⟨!(e.range.containsRange t), e.range.intersectsRange t⟩ : BoolMask) := by
        unfold atomMask
        rw [htr, hf]
      have htruth : rowAtomTruth row e = !(e.range.containsValue
          (chainApply e.monotonic_functions_chain (row.getD e.key_column 0))) := by
        unfold rowAtomTruth
        rw [hf]
      rw [hmask, htruth]
      constructor
      · intro hb
        rw [Bool.not_eq_true'] at hb
        show (!(e.range.containsRange t)) = true
        rw [Bool.not_eq_true']
        by_contra hcf
        simp only [Bool.not_eq_false] at hcf
        have := containsRange_sound hcf hmt
        simp_all
      · intro hb
        rw [Bool.not_eq_false'] at hb
        show e.range.intersectsRange t = true
        exact mem_mem_intersects hb hmt
    · have hmask : atomMask e par
          = (⟨e.set_index.any (fun w => t.containsValue w),
              !(t.subsetOfList e.set_index)⟩ : BoolMask) := by
        unfold atomMask
        rw [htr, hf]
      have htruth : rowAtomTruth row e = e.set_index.contains
          (chainApply e.monotonic_functions_chain (row.getD e.key_column 0)) := by
        unfold rowAtomTruth
        rw [hf]
      rw [hmask, htruth]
      constructor
      · intro hb
        show e.set_index.any (fun w => t.containsValue w) = true
        simp only [List.any_eq_true]
        exact ⟨_, by simpa using hb, hmt⟩
      · intro hb
        show (!(t.subsetOfList e.set_index)) = true
        rw [Bool.not_eq_true']
        by_contra hcf
        simp only [Bool.not_eq_false] at hcf
        have := subsetOfList_sound hcf hmt
        simp_all
    · have hmask : atomMask e par
          = (⟨!(t.subsetOfList e.set_index),
              e.set_index.any (fun w => t.containsValue w)⟩ : BoolMask) := by
        unfold atomMask
        rw [htr, hf]
      have htruth : rowAtomTruth row e = !(e.set_index.contains
          (chainApply e.monotonic_functions_chain (row.getD e.key_column 0))) := by
        unfold rowAtomTruth
        rw [hf]
      rw [hmask, htruth]
      constructor
      · intro hb
        rw [Bool.not_eq_true'] at hb
        show (!(t.subsetOfList e.set_index)) = true
        rw [Bool.not_eq_true']
        by_contra hcf
        simp only [Bool.not_eq_false] at hcf
        have := subsetOfList_sound hcf hmt
        simp_all
      · intro hb
        rw [Bool.not_eq_false'] at hb
        show e.set_index.any (fun w => t.containsValue w) = true
        simp only [List.any_eq_true]
        exact ⟨_, by simpa using hb, hmt⟩

theorem maskStep_rel {e : RPNElement} {par : List Range} {row : List Int} {u : Nat → Bool}
    {i : Nat} {ms : List BoolMask} {bs : List Bool}
    (hpar : parOk par row) (hhon : e.chainsHonest)
    (hrel : List.Forall₂ maskRowRel ms bs) :
    List.Forall₂ maskRowRel (maskStep par ms e) (rowStep row u bs i e) := by
  cases hfn : e.function
  case FUNCTION_UNKNOWN =>
    simp only [maskStep, rowStep, hfn]
    exact List.Forall₂.cons ⟨fun _ => rfl, fun _ => rfl⟩ hrel
  case ALWAYS_TRUE =>
    simp only [maskStep, rowStep, hfn]
    exact List.Forall₂.cons ⟨fun _ => rfl, fun h => by simp at h⟩ hrel
  case ALWAYS_FALSE =>
    simp only [maskStep, rowStep, hfn]
    exact List.Forall₂.cons ⟨fun h => by simp at h, fun _ => rfl⟩ hrel
  case FUNCTION_IN_RANGE =>
    simp only [maskStep, rowStep, hfn]
    exact List.Forall₂.cons (atomMask_rel hpar hhon (Or.inl hfn)) hrel
  case FUNCTION_NOT_IN_RANGE =>
    simp only [maskStep, rowStep, hfn]
    exact List.Forall₂.cons (atomMask_rel hpar hhon (Or.inr (Or.inl hfn))) hrel
  case FUNCTION_IN_SET =>
    simp only [maskStep, rowStep, hfn]
    exact List.Forall₂.cons (atomMask_rel hpar hhon (Or.inr (Or.inr (Or.inl hfn)))) hrel
  case FUNCTION_NOT_IN_SET =>
    simp only [maskStep, rowStep, hfn]
    exact List.Forall₂.cons (atomMask_rel hpar hhon (Or.inr (Or.inr (Or.inr hfn)))) hrel
  case FUNCTION_NOT =>
    simp only [maskStep, rowStep, hfn]
    cases hrel with
    | nil => exact List.Forall₂.nil
    | cons hhead htail =>
      refine List.Forall₂.cons ⟨?_, ?_⟩ htail
      · rename_i b ms' bs'
        intro h
        exact hhead.2 (by revert h; cases b <;> simp)
      · rename_i b ms' bs'
        intro h
        exact hhead.1 (by revert h; cases b <;> simp)
  case FUNCTION_AND =>
    simp only [maskStep, rowStep, hfn]
    cases hrel with
    | nil => exact List.Forall₂.nil
    | cons hhead htail =>
      cases htail with
      | nil => exact List.Forall₂.nil
      | cons hhead2 htail2 =>
        rename_i b1 m2 b2 ms' bs'
        refine List.Forall₂.cons ⟨?_, ?_⟩ htail2
        · intro h
          simp only [Bool.and_eq_true] at h ⊢
          exact ⟨hhead.1 h.1, hhead2.1 h.2⟩
        · intro h
          simp only [Bool.and_eq_false_iff] at h
          simp only [Bool.or_eq_true]
          rcases h with h | h
          · exact Or.inl (hhead.2 h)
          · exact Or.inr (hhead2.2 h)
  case FUNCTION_OR =>
    simp only [maskStep, rowStep, hfn]
    cases hrel with
    | nil => exact List.Forall₂.nil
    | cons hhead htail =>
      cases htail with
      | nil => exact List.Forall₂.nil
      | cons hhead2 htail2 =>
        rename_i b1 m2 b2 ms' bs'
        refine List.Forall₂.cons ⟨?_, ?_⟩ htail2
        · intro h
          simp only [Bool.or_eq_true] at h
          simp only [Bool.or_eq_true]
          rcases h with h | h
          · exact Or.inl (hhead.1 h)
          · exact Or.inr (hhead2.1 h)
        · intro h
          simp only [Bool.or_eq_false_iff] at h
          simp only [Bool.and_eq_true]
          exact ⟨hhead.2 h.1, hhead2.2 h.2⟩

theorem maskEval_rel (par : List Range) (row : List Int) (u : Nat → Bool)
    (hpar : parOk par row) :
    ∀ (rpn : List RPNElement), (∀ e ∈ rpn, e.chainsHonest) →
      ∀ (i : Nat) (ms : List BoolMask) (bs : List Bool),
        List.Forall₂ maskRowRel ms bs →
        List.Forall₂ maskRowRel (maskEvalAux par ms rpn) (rowEvalAux row u i bs rpn) := by
  intro rpn
  induction rpn with
  | nil =>
    intro _ i ms bs h
    simpa [maskEvalAux, rowEvalAux] using h
  | cons e rest ih =>
    intro hhon i ms bs h
    unfold maskEvalAux rowEvalAux
    exact ih (fun e' he' => hhon e' (List.mem_cons_of_mem _ he')) (i + 1) _ _
      (maskStep_rel hpar (hhon e (List.mem_cons_self _ _)) h)

theorem evalResult_sound {rpn : List RPNElement} {par : List Range} {row : List Int}
    {u : Nat → Bool} (hpar : parOk par row) (hhon : ∀ e ∈ rpn, e.chainsHonest)
    (hfalse : evalResult rpn par = false) : rowEvalResult rpn u row = false := by
  have hrel := maskEval_rel par row u hpar rpn hhon 0 [] [] List.Forall₂.nil
  unfold evalResult at hfalse
  unfold rowEvalResult
  generalize hbs : rowEvalAux row u 0 [] rpn = bs at hrel ⊢
  generalize hms : maskEvalAux par [] rpn = ms at hrel hfalse
  cases hrel with
  | nil => simp at hfalse
  | cons hhead htail =>
    rename_i m b ms' bs'
    cases htail with
    | nil =>
      simp only [] at hfalse ⊢
      cases hb : b with
      | true =>
        rw [hb] at hhead
        have := hhead.1 rfl
        simp_all
      | false => simp [hb]
    | cons hhead2 htail2 => simp at hfalse

theorem getD_beyond {α : Type} (l : List α) (d : α) {i : Nat} (h : l.length ≤ i) :
    l.getD i d = d := by
  induction l generalizing i with
  | nil => simp
  | cons a t ih =>
    cases i with
    | zero => simp at h
    | succ j =>
      have hj : t.length ≤ j := by simp at h; omega
      simpa using ih hj

theorem buildKeyRanges_length_le (ls rs : List Int) :
    (buildKeyRanges ls rs).length ≤ ls.length := by
  induction ls generalizing rs with
  | nil => cases rs <;> simp [buildKeyRanges]
  | cons l ls ih =>
    cases rs with
    | nil => simp [buildKeyRanges]
    | cons r rs =>
      by_cases hlr : l = r
      · simp only [buildKeyRanges, if_pos hlr, List.length_cons]
        exact Nat.succ_le_succ (ih rs)
      · simp [buildKeyRanges, hlr]

/-- The parallelogram derived from a lexicographic key range is
well-formed and contains (column by column) every row of the range. -/
theorem parOk_buildKeyRanges {n : Nat} {left right row : List Int}
    (hn1 : n ≤ left.length) (hn2 : n ≤ right.length) (hn3 : n ≤ row.length)
    (hlex1 : lexLe (left.take n) (row.take n) = true)
    (hlex2 : lexLe (row.take n) (right.take n) = true) :
    parOk (buildKeyRanges (left.take n) (right.take n)) row := by
  intro col
  refine ⟨buildKeyRanges_closedSides _ _ _, ?_⟩
  have hlen1 : (left.take n).length = (right.take n).length := by
    simp [List.length_take]
    omega
  have hlen2 : (row.take n).length = (left.take n).length := by
    simp [List.length_take]
    omega
  have hmem := lex_mem_buildKeyRanges _ _ _ hlen1 hlen2 hlex1 hlex2 col
  by_cases hcol : col < n
  · rwa [getD_take hcol] at hmem
  · have hlenb : (buildKeyRanges (left.take n) (right.take n)).length ≤ col := by
      have h1 := buildKeyRanges_length_le (left.take n) (right.take n)
      have h2 : (left.take n).length ≤ n := by simp [List.length_take]
      omega
    rw [getD_beyond _ _ hlenb]
    exact fullRange_contains _

/-- Characterization of the derived per-column intervals, in terms of the
first differing position of the two key tuples. -/
theorem buildKeyRanges_getD (ls rs : List Int) (h : ls.length = rs.length) (i : Nat) :
    (buildKeyRanges ls rs).getD i fullRange
      = (if i < firstDiff ls rs then pointRange (ls.getD i 0)
         else if i = firstDiff ls rs ∧ i < ls.length then
           boundedRange (ls.getD i 0) (rs.getD i 0)
         else fullRange) := by
  induction ls generalizing rs i with
  | nil =>
    cases rs with
    | nil => simp [buildKeyRanges, firstDiff]
    | cons r rs => simp at h
  | cons l ls ih =>
    cases rs with
    | nil => simp at h
    | cons r rs =>
      have hp : ls.length = rs.length := by simpa using h
      by_cases hlr : l = r
      · subst hlr
        cases i with
        | zero => simp [buildKeyRanges, firstDiff]
        | succ j =>
          have hred : buildKeyRanges (l :: ls) (l :: rs)
              = pointRange l :: buildKeyRanges ls rs := by
            simp [buildKeyRanges]
          have hfd : firstDiff (l :: ls) (l :: rs) = firstDiff ls rs + 1 := by
            simp [firstDiff]
          rw [hred]
          simp only [List.getD_cons_succ]
          rw [ih rs hp j, hfd]
          by_cases hj1 : j < firstDiff ls rs
          · rw [if_pos hj1, if_pos (show j + 1 < firstDiff ls rs + 1 from by omega)]
          · rw [if_neg hj1,
              if_neg (show ¬(j + 1 < firstDiff ls rs + 1) from by omega)]
            by_cases hj2 : j = firstDiff ls rs ∧ j < ls.length
            · rw [if_pos hj2,
                if_pos (show j + 1 = firstDiff ls rs + 1 ∧ j + 1 < (l :: ls).length from by
                  simp only [List.length_cons]; omega)]
            · rw [if_neg hj2,
                if_neg (show ¬(j + 1 = firstDiff ls rs + 1 ∧ j + 1 < (l :: ls).length) from by
                  simp only [List.length_cons]; omega)]
      · have hbd : buildKeyRanges (l :: ls) (r :: rs)
            = boundedRange l r :: List.replicate ls.length fullRange := by
          simp [buildKeyRanges, hlr]
        have hfd : firstDiff (l :: ls) (r :: rs) = 0 := by
          simp [firstDiff, hlr]
        rw [hbd, hfd]
        cases i with
        | zero => simp
        | succ j =>
          simp only [List.getD_cons_succ]
          rw [replicate_getD_full]
          rw [if_neg (show ¬(j + 1 < 0) from by omega),
            if_neg (show ¬(j + 1 = 0 ∧ j + 1 < (l :: ls).length) from by omega)]

/-! ### Helper lemmas for the claims -/

theorem applyChain_increasing (chain : List MonoFunc)
    (h : ∀ g ∈ chain, ∀ s : Range,
      (g.mono s).is_monotonic = true ∧ (g.mono s).is_positive = true) :
    ∀ (a b : Int) (li ri : Bool),
      applyMonotonicFunctionsChainToRange ⟨.normal a, .normal b, li, ri⟩ chain
        = some ⟨.normal (chainApply chain a), .normal (chainApply chain b), li, ri⟩ := by
  induction chain with
  | nil => intro a b li ri; rfl
  | cons g rest ih =>
    intro a b li ri
    have h1 := (h g (by simp) ⟨.normal a, .normal b, li, ri⟩).1
    have h2 := (h g (by simp) ⟨.normal a, .normal b, li, ri⟩).2
    have hstep : applyMonoStep g ⟨.normal a, .normal b, li, ri⟩
        = some ⟨.normal (g.f a), .normal (g.f b), li, ri⟩ := by
      unfold applyMonoStep
      rw [if_neg (by simp [h1]), if_pos h2]
      rfl
    unfold applyMonotonicFunctionsChainToRange
    rw [hstep]
    exact ih (fun g' hg' => h g' (by simp [hg'])) (g.f a) (g.f b) li ri

theorem applyStep_decreasing (g : MonoFunc) (a b : Int) (li ri : Bool)
    (h : ∀ s : Range, (g.mono s).is_monotonic = true ∧ (g.mono s).is_positive = false) :
    applyMonoStep g ⟨.normal a, .normal b, li, ri⟩
      = some ⟨.normal (g.f b), .normal (g.f a), ri, li⟩ := by
  have h1 := (h ⟨.normal a, .normal b, li, ri⟩).1
  have h2 := (h ⟨.normal a, .normal b, li, ri⟩).2
  unfold applyMonoStep
  rw [if_neg (by simp [h1]), if_neg (by simp [h2])]
  rfl

theorem applyChain_take_fail (chain : List MonoFunc) :
    ∀ (r : Range) (k : Nat) (rk : Range) (g : MonoFunc),
      applyMonotonicFunctionsChainToRange r (chain.take k) = some rk →
      chain[k]? = some g → (g.mono rk).is_monotonic = false →
      applyMonotonicFunctionsChainToRange r chain = none := by
  induction chain with
  | nil => intro r k rk g _ hg _; simp at hg
  | cons g0 rest ih =>
    intro r k rk g htake hg hmono
    cases k with
    | zero =>
      simp only [List.take_zero] at htake
      unfold applyMonotonicFunctionsChainToRange at htake
      simp only [Option.some.injEq] at htake
      subst htake
      simp only [List.getElem?_cons_zero, Option.some.injEq] at hg
      subst hg
      have hnone : applyMonoStep g0 r = none := by
        unfold applyMonoStep
        rw [if_pos hmono]
      unfold applyMonotonicFunctionsChainToRange
      rw [hnone]
    | succ j =>
      rw [List.take_succ_cons] at htake
      unfold applyMonotonicFunctionsChainToRange at htake ⊢
      cases hstep : applyMonoStep g0 r with
      | none => rw [hstep] at htake
      | some r1 =>
        rw [hstep] at htake
        have htake2 : applyMonotonicFunctionsChainToRange r1 (List.take j rest) = some rk := by
          simpa using htake
        show applyMonotonicFunctionsChainToRange r1 rest = none
        exact ih r1 j rk g htake2 (by simpa using hg) hmono

/-! ### The claims -/

/-- Claim C1 (soundness of range exclusion): for every compiled predicate
(an RPN sequence whose monotonicity oracles are honest), every key range
given as left/right key tuples, and every row lying lexicographically
between them, if `mayBeTrueInRange` returns false then the predicate
evaluates to false on that row, for any truth valuation `u` of the Unknown
atoms - the evaluator never excludes a range that contains a matching
row. -/
theorem claim_C1_soundness (kc : KeyCondition) (n : Nat) (left right row : List Int)
    (u : Nat → Bool)
    (hn1 : n ≤ left.length) (hn2 : n ≤ right.length) (hn3 : n ≤ row.length)
    (hhon : ∀ e ∈ kc.rpn, e.chainsHonest)
    (hlex1 : lexLe (left.take n) (row.take n) = true)
    (hlex2 : lexLe (row.take n) (right.take n) = true)
    (hfalse : kc.mayBeTrueInRange n left right = false) :
    rowEvalResult kc.rpn u row = false := by
  unfold KeyCondition.mayBeTrueInRange at hfalse
  exact evalResult_sound (parOk_buildKeyRanges hn1 hn2 hn3 hlex1 hlex2) hhon hfalse

/-- The single-atom condition `key0 ∈ [0, 0]` used by the witness of C1. -/
def elemW1 : RPNElement :=
  { function := .FUNCTION_IN_RANGE, range := boundedRange 0 0, key_column := 0 }

/-- The compiled condition used by the witness of C1. -/
def kcW1 : KeyCondition := ⟨[elemW1], ["k"]⟩

/-- Witness for C1: the range with key tuples `[5]`..`[7]` is excluded for
the condition `key0 ∈ [0, 0]`, and indeed the predicate is false on the
row `[6]` inside that range. -/
theorem claim_C1_soundness_witness :
    (1 ≤ ([5] : List Int).length)
    ∧ (∀ e ∈ kcW1.rpn, e.chainsHonest)
    ∧ lexLe (([5] : List Int).take 1) (([6] : List Int).take 1) = true
    ∧ lexLe (([6] : List Int).take 1) (([7] : List Int).take 1) = true
    ∧ kcW1.mayBeTrueInRange 1 [5] [7] = false
    ∧ rowEvalResult kcW1.rpn (fun _ => true) [6] = false := by
  have hhon : ∀ e ∈ kcW1.rpn, e.chainsHonest := by
    intro e he g hg
    have he' : e = elemW1 := by simpa [kcW1] using he
    subst he'
    have hch : elemW1.monotonic_functions_chain = [] := rfl
    rw [hch] at hg
    simp at hg
  refine ⟨by decide, hhon, by decide, by decide, by rfl, ?_⟩
  exact claim_C1_soundness kcW1 1 [5] [7] [6] (fun _ => true)
    (by decide) (by decide) (by decide) hhon (by decide) (by decide) (by rfl)

/-- Claim C4 (tuple-range derivation): the interval derived for each column
is the pinned point value strictly before the first differing position of
the two key tuples, the closed interval between the two bounds at the
first differing position, and fully unbounded afterwards; for
`used_key_size = 0` every column is unconstrained, so the derived range is
trivially satisfiable. -/
theorem claim_C4_tuple_range (ls rs : List Int) (h : ls.length = rs.length) (i : Nat) :
    (i < firstDiff ls rs →
      (buildKeyRanges ls rs).getD i fullRange = pointRange (ls.getD i 0))
    ∧ (i = firstDiff ls rs → i < ls.length →
      (buildKeyRanges ls rs).getD i fullRange = boundedRange (ls.getD i 0) (rs.getD i 0))
    ∧ (firstDiff ls rs < i →
      (buildKeyRanges ls rs).getD i fullRange = fullRange)
    ∧ (ls = [] → ∀ (col : Nat) (x : Int),
      ((buildKeyRanges ls rs).getD col fullRange).containsValue x = true) := by
  refine ⟨?_, ?_, ?_, ?_⟩
  · intro hi
    rw [buildKeyRanges_getD ls rs h i, if_pos hi]
  · intro hi hlen
    rw [buildKeyRanges_getD ls rs h i, if_neg (by omega), if_pos ⟨hi, hlen⟩]
  · intro hi
    rw [buildKeyRanges_getD ls rs h i, if_neg (by omega), if_neg (by omega)]
  · intro hnil col x
    subst hnil
    cases rs with
    | nil =>
      have h0 : (buildKeyRanges ([] : List Int) []).length ≤ col := by
        simp [buildKeyRanges]
      rw [getD_beyond _ _ h0]
      exact fullRange_contains x
    | cons r rs => simp at h

/-- Witness for C4, on the spec's own examples: `left = (1,5)`,
`right = (1,9)` pins column 0 to `[1,1]` and bounds column 1 by `[5,9]`;
`left = (1,5)`, `right = (3,2)` bounds column 0 by `[1,3]` and leaves
column 1 fully unbounded; with no key columns everything is
unconstrained. -/
theorem claim_C4_witness :
    (buildKeyRanges [1, 5] [1, 9]).getD 0 fullRange = pointRange 1
    ∧ (buildKeyRanges [1, 5] [1, 9]).getD 1 fullRange = boundedRange 5 9
    ∧ (buildKeyRanges [1, 5] [3, 2]).getD 0 fullRange = boundedRange 1 3
    ∧ (buildKeyRanges [1, 5] [3, 2]).getD 1 fullRange = fullRange
    ∧ ((buildKeyRanges [] []).getD 0 fullRange).containsValue 42 = true :=
  ⟨(claim_C4_tuple_range [1, 5] [1, 9] rfl 0).1 (by decide),
   (claim_C4_tuple_range [1, 5] [1, 9] rfl 1).2.1 (by decide) (by decide),
   (claim_C4_tuple_range [1, 5] [3, 2] rfl 0).2.1 (by decide) (by decide),
   (claim_C4_tuple_range [1, 5] [3, 2] rfl 1).2.2.1 (by decide),
   (claim_C4_tuple_range [] [] rfl 0).2.2.2 rfl 0 42⟩

/-- Claim C5 (monotonic-chain round trip): a chain of steps the oracle
reports increasing maps `[a, b]` to `[F a, F b]` (with `F` the composed
function) keeping the bound flags; one decreasing step maps `[a, b]` to
`[f b, f a]` with the flags swapped; and two decreasing steps compose to a
net increasing transform `[a, b] ↦ [g (f a), g (f b)]` with the flags
restored. -/
theorem claim_C5_chain_round_trip (a b : Int) (li ri : Bool) :
    (∀ chain : List MonoFunc,
      (∀ g ∈ chain, ∀ s : Range,
        (g.mono s).is_monotonic = true ∧ (g.mono s).is_positive = true) →
      applyMonotonicFunctionsChainToRange ⟨.normal a, .normal b, li, ri⟩ chain
        = some ⟨.normal (chainApply chain a), .normal (chainApply chain b), li, ri⟩)
    ∧ (∀ g : MonoFunc,
      (∀ s : Range, (g.mono s).is_monotonic = true ∧ (g.mono s).is_positive = false) →
      applyMonotonicFunctionsChainToRange ⟨.normal a, .normal b, li, ri⟩ [g]
        = some ⟨.normal (g.f b), .normal (g.f a), ri, li⟩)
    ∧ (∀ g1 g2 : MonoFunc,
      (∀ s : Range, (g1.mono s).is_monotonic = true ∧ (g1.mono s).is_positive = false) →
      (∀ s : Range, (g2.mono s).is_monotonic = true ∧ (g2.mono s).is_positive = false) →
      applyMonotonicFunctionsChainToRange ⟨.normal a, .normal b, li, ri⟩ [g1, g2]
        = some ⟨.normal (g2.f (g1.f a)), .normal (g2.f (g1.f b)), li, ri⟩) := by
  refine ⟨?_, ?_, ?_⟩
  · intro chain h
    exact applyChain_increasing chain h a b li ri
  · intro g h
    unfold applyMonotonicFunctionsChainToRange
    rw [applyStep_decreasing g a b li ri h]
    rfl
  · intro g1 g2 h1 h2
    have e1 : applyMonotonicFunctionsChainToRange ⟨.normal a, .normal b, li, ri⟩ [g1, g2]
        = applyMonotonicFunctionsChainToRange ⟨.normal (g1.f b), .normal (g1.f a), ri, li⟩
            [g2] := by
      conv_lhs => unfold applyMonotonicFunctionsChainToRange
      rw [applyStep_decreasing g1 a b li ri h1]
    rw [e1]
    unfold applyMonotonicFunctionsChainToRange
    rw [applyStep_decreasing g2 (g1.f b) (g1.f a) ri li h2]
    rfl

/-- An everywhere-decreasing chain element (negation) for the witnesses. -/
def negStep : MonoFunc := ⟨fun x => -x, fun _ => ⟨true, false⟩⟩

/-- An everywhere-increasing chain element (successor) for the witnesses. -/
def incStep : MonoFunc := ⟨fun x => x + 1, fun _ => ⟨true, true⟩⟩

/-- Witness for C5 at `[a, b] = [2, 9]` with the successor and negation
steps. -/
theorem claim_C5_witness :
    applyMonotonicFunctionsChainToRange ⟨.normal 2, .normal 9, true, true⟩ [incStep]
      = some ⟨.normal 3, .normal 10, true, true⟩
    ∧ applyMonotonicFunctionsChainToRange ⟨.normal 2, .normal 9, true, true⟩ [negStep]
      = some ⟨.normal (-9), .normal (-2), true, true⟩
    ∧ applyMonotonicFunctionsChainToRange ⟨.normal 2, .normal 9, true, true⟩ [negStep, negStep]
      = some ⟨.normal 2, .normal 9, true, true⟩ := by
  refine ⟨?_, ?_, ?_⟩
  · exact (claim_C5_chain_round_trip 2 9 true true).1 [incStep]
      (by intro g hg s; rw [List.mem_singleton] at hg; subst hg; exact ⟨rfl, rfl⟩)
  · exact (claim_C5_chain_round_trip 2 9 true true).2.1 negStep (fun s => ⟨rfl, rfl⟩)
  · exact (claim_C5_chain_round_trip 2 9 true true).2.2 negStep negStep
      (fun s => ⟨rfl, rfl⟩) (fun s => ⟨rfl, rfl⟩)

/-- Claim C6 (chain-transport failure mode): if, after transporting the
interval through the first `k` chain elements, the oracle cannot prove the
`k`-th element monotonic on the transported interval, the whole chain
application returns no result; and an atomic node whose chain transport
failed is evaluated as the Unknown outcome (the possibly-true/possibly-
false mask) in the stack machine. -/
theorem claim_C6_chain_failure (chain : List MonoFunc) (r : Range) (k : Nat) (rk : Range)
    (g : MonoFunc)
    (htake : applyMonotonicFunctionsChainToRange r (chain.take k) = some rk)
    (hg : chain[k]? = some g)
    (hmono : (g.mono rk).is_monotonic = false) :
    applyMonotonicFunctionsChainToRange r chain = none
    ∧ (∀ (e : RPNElement) (par : List Range) (st : List BoolMask),
        (e.function = .FUNCTION_IN_RANGE ∨ e.function = .FUNCTION_NOT_IN_RANGE ∨
          e.function = .FUNCTION_IN_SET ∨ e.function = .FUNCTION_NOT_IN_SET) →
        atomAppliedRange e par = none →
        maskStep par st e = (⟨true, true⟩ : BoolMask) :: st) := by
  constructor
  · exact applyChain_take_fail chain r k rk g htake hg hmono
  · intro e par st hf hnone
    have hmask : atomMask e par = (⟨true, true⟩ : BoolMask) := by
      unfold atomMask
      rw [hnone]
    rcases hf with hf | hf | hf | hf <;> simp only [maskStep, hf, hmask]

/-- A chain element whose oracle never certifies monotonicity, for the
witness of C6. -/
def gBad : MonoFunc := ⟨fun x => x, fun _ => ⟨false, true⟩⟩

/-- Witness for C6: a one-element chain whose oracle refuses monotonicity
fails at step 0, and the whole transport yields no result. -/
theorem claim_C6_witness :
    applyMonotonicFunctionsChainToRange fullRange (([gBad] : List MonoFunc).take 0)
      = some fullRange
    ∧ ([gBad] : List MonoFunc)[0]? = some gBad
    ∧ (gBad.mono fullRange).is_monotonic = false
    ∧ applyMonotonicFunctionsChainToRange fullRange [gBad] = none :=
  ⟨rfl, rfl, rfl, (claim_C6_chain_failure [gBad] fullRange 0 fullRange gBad rfl rfl rfl).1⟩

/-- Claim C8 (addCondition semantics): when the column is not part of the
key, `addCondition` returns false and leaves the compiled condition
entirely unchanged; when it is the key column of ordinal `i`,
`addCondition` only appends - an `InRange` atom on ordinal `i` followed by
an `And` with the previously compiled sequence - returns true, and leaves
the key-column list unchanged. -/
theorem claim_C8_addCondition (kc : KeyCondition) (column : String) (r : Range) :
    (keyIndexOf kc.key_columns column = none →
      kc.addCondition column r = (kc, false))
    ∧ (∀ i, keyIndexOf kc.key_columns column = some i →
      ((kc.addCondition column r).1.rpn
          = kc.rpn ++ [{ function := .FUNCTION_IN_RANGE, range := r, key_column := i }, andElem]
        ∧ (kc.addCondition column r).1.key_columns = kc.key_columns
        ∧ (kc.addCondition column r).2 = true)) := by
  constructor
  · intro h
    unfold KeyCondition.addCondition
    rw [h]
  · intro i h
    unfold KeyCondition.addCondition
    rw [h]
    exact ⟨rfl, rfl, rfl⟩

/-- The compiled condition used by the witness of C8. -/
def kcW8 : KeyCondition := ⟨[], ["a", "k"]⟩

/-- Witness for C8: adding a condition on a non-key column is a no-op
returning false; adding one on the key column `k` (ordinal 1) appends the
atom and the conjunction and returns true. -/
theorem claim_C8_witness :
    kcW8.addCondition "z" fullRange = (kcW8, false)
    ∧ (kcW8.addCondition "k" fullRange).1.rpn
        = kcW8.rpn ++ [{ function := .FUNCTION_IN_RANGE, range := fullRange, key_column := 1 }, andElem]
    ∧ (kcW8.addCondition "k" fullRange).2 = true :=
  ⟨(claim_C8_addCondition kcW8 "z" fullRange).1 rfl,
   ((claim_C8_addCondition kcW8 "k" fullRange).2 1 rfl).1,
   ((claim_C8_addCondition kcW8 "k" fullRange).2 1 rfl).2.2⟩

/-- Claim C3 (negation asymmetry): for an `InRange` node the stack machine
pushes a mask whose possibly-true component holds exactly when the
chain-transformed column interval has a value in common with the node's
stored range, while for a `NotInRange` node it pushes possibly-true exactly
when some value of the column interval lies outside the stored range ("not
all values match"); the `NotInRange` result is not the boolean negation of
the `InRange` result, and the two differ on a partially overlapping
interval. -/
theorem claim_C3_negation_asymmetry (col : Nat) (rg : Range) (chain : List MonoFunc)
    (par : List Range) (st : List BoolMask) (t : Range)
    (htr : applyMonotonicFunctionsChainToRange (par.getD col fullRange) chain = some t)
    (h1 : rg.cwf = true) (h2 : t.cwf = true) :
    maskStep par st { function := .FUNCTION_IN_RANGE, range := rg, key_column := col, monotonic_functions_chain := chain } = (⟨rg.intersectsRange t, !(rg.containsRange t)⟩ : BoolMask) :: st
    ∧ (rg.intersectsRange t = true ↔ ∃ x : Int, t.containsValue x = true ∧ rg.containsValue x = true)
    ∧ maskStep par st { function := .FUNCTION_NOT_IN_RANGE, range := rg, key_column := col, monotonic_functions_chain := chain } = (⟨!(rg.containsRange t), rg.intersectsRange t⟩ : BoolMask) :: st
    ∧ ((!(rg.containsRange t)) = true ↔ ∃ x : Int, t.containsValue x = true ∧ rg.containsValue x = false)
    ∧ ((maskStep [boundedRange 5 15] [] { function := .FUNCTION_NOT_IN_RANGE, range := boundedRange 0 10, key_column := 0 }).headD ⟨false, false⟩).can_be_true ≠ (!((maskStep [boundedRange 5 15] [] { function := .FUNCTION_IN_RANGE, range := boundedRange 0 10, key_column := 0 }).headD ⟨false, false⟩).can_be_true) := by
  have hA : atomAppliedRange { function := .FUNCTION_IN_RANGE, range := rg, key_column := col, monotonic_functions_chain := chain } par = some t := htr
  have hB : atomAppliedRange { function := .FUNCTION_NOT_IN_RANGE, range := rg, key_column := col, monotonic_functions_chain := chain } par = some t := htr
  refine ⟨?_, ?_, ?_, ?_, by decide⟩
  · show atomMask { function := .FUNCTION_IN_RANGE, range := rg, key_column := col, monotonic_functions_chain := chain } par :: st = _
    rw [show atomMask { function := .FUNCTION_IN_RANGE, range := rg, key_column := col, monotonic_functions_chain := chain } par = (⟨rg.intersectsRange t, !(rg.containsRange t)⟩ : BoolMask) from by unfold atomMask; rw [hA]]
  · constructor
    · intro hI
      obtain ⟨x, hx1, hx2⟩ := intersectsRange_exact h1 h2 hI
      exact ⟨x, hx2, hx1⟩
    · rintro ⟨x, hxt, hxr⟩
      exact mem_mem_intersects hxr hxt
  · show atomMask { function := .FUNCTION_NOT_IN_RANGE, range := rg, key_column := col, monotonic_functions_chain := chain } par :: st = _
    rw [show atomMask { function := .FUNCTION_NOT_IN_RANGE, range := rg, key_column := col, monotonic_functions_chain := chain } par = (⟨!(rg.containsRange t), rg.intersectsRange t⟩ : BoolMask) from by unfold atomMask; rw [hB]]
  · constructor
    · intro hI
      rw [Bool.not_eq_true'] at hI
      exact containsRange_exact h1 h2 hI
    · rintro ⟨x, hxt, hxr⟩
      rw [Bool.not_eq_true']
      by_contra hc
      simp only [Bool.not_eq_false] at hc
      have := containsRange_sound hc hxt
      simp_all

/-- Witness for C3 with the column interval `[5, 15]` and the stored range
`[0, 10]` (a partial overlap), with an empty chain. -/
theorem claim_C3_witness :
    applyMonotonicFunctionsChainToRange (([boundedRange 5 15] : List Range).getD 0 fullRange) [] = some (boundedRange 5 15)
    ∧ (boundedRange 0 10).cwf = true
    ∧ (boundedRange 5 15).cwf = true
    ∧ ((boundedRange 0 10).intersectsRange (boundedRange 5 15) = true ↔
        ∃ x : Int, (boundedRange 5 15).containsValue x = true
          ∧ (boundedRange 0 10).containsValue x = true) :=
  ⟨rfl, by decide, by decide,
   (claim_C3_negation_asymmetry 0 (boundedRange 0 10) [] [boundedRange 5 15] []
     (boundedRange 5 15) rfl (by decide) (by decide)).2.1⟩

/-- Counterexample for C2 as stated: the literal `0` is not classified as a
comparison, membership test or logical connective, yet the compiler emits
the `ALWAYS_FALSE` constant node for it (it constant-folds to a false
constant), not the Unknown atom. -/
theorem claim_C2_counterexample :
    isConnectiveShape (AST.lit 0) = false
    ∧ atomFromAST litFold ["k"] (AST.lit 0) = none
    ∧ litFold (AST.lit 0) = some 0
    ∧ traverseAST litFold ["k"] (AST.lit 0) = [{ function := RPNFunction.ALWAYS_FALSE }]
    ∧ ({ function := RPNFunction.ALWAYS_FALSE } : RPNElement) ≠ unknownElem := by
  refine ⟨rfl, rfl, rfl, ?_, ?_⟩
  · show leafOrConst litFold ["k"] (AST.lit 0) = [{ function := RPNFunction.ALWAYS_FALSE }]
    show [constElem 0] = [{ function := RPNFunction.ALWAYS_FALSE }]
    unfold constElem
    rw [if_neg (by decide)]
  · intro h
    exact absurd (congrArg RPNElement.function h) (by decide)

/-- Claim C2 as amended (conservatism of compilation): every subtree the
compiler cannot classify as a supported comparison, membership test,
logical connective, or constant-foldable subexpression compiles to exactly
the Unknown atom (in particular never to `ALWAYS_FALSE`); the Unknown atom
pushes the possibly-true mask in the shared stack-machine step used by
every evaluation mode, and a condition reduced to the Unknown atom can
never exclude a range in any of the three evaluation modes. -/
theorem claim_C2_conservatism (fold : AST → Option Int) (keys : List String) (t : AST)
    (hconn : isConnectiveShape t = false)
    (hatom : atomFromAST fold keys t = none)
    (hfold : fold t = none) :
    traverseAST fold keys t = [unknownElem]
    ∧ (∀ (par : List Range) (st : List BoolMask),
        maskStep par st unknownElem = (⟨true, true⟩ : BoolMask) :: st)
    ∧ (∀ (ks : List String) (n : Nat) (l r : List Int) (par : List Range),
        (KeyCondition.mk [unknownElem] ks).mayBeTrueInRange n l r = true
        ∧ (KeyCondition.mk [unknownElem] ks).mayBeTrueAfter n l = true
        ∧ (KeyCondition.mk [unknownElem] ks).mayBeTrueInParallelogram par = true) := by
  have hleaf : leafOrConst fold keys t = [unknownElem] := by
    unfold leafOrConst
    rw [hfold]
    unfold leafCompile
    rw [hatom]
  refine ⟨?_, fun par st => rfl, fun ks n l r par => ⟨rfl, rfl, rfl⟩⟩
  cases t with
  | func name args =>
    rcases args with _ | ⟨a, _ | ⟨b, _ | ⟨c, rest⟩⟩⟩
    · exact hleaf
    · have hn : ¬(name = "not") := by
        intro hcontra
        rw [hcontra] at hconn
        simp [isConnectiveShape] at hconn
      show (if fold (AST.func name [a]) = none ∧ name = "not"
        then traverseAST fold keys a ++ [notElem]
        else leafOrConst fold keys (AST.func name [a])) = [unknownElem]
      rw [if_neg (fun hand => hn hand.2)]
      exact hleaf
    · have hn1 : ¬(name = "and") := by
        intro hcontra
        rw [hcontra] at hconn
        simp [isConnectiveShape] at hconn
      have hn2 : ¬(name = "or") := by
        intro hcontra
        rw [hcontra] at hconn
        simp [isConnectiveShape] at hconn
      show (if fold (AST.func name [a, b]) = none ∧ name = "and"
        then traverseAST fold keys a ++ traverseAST fold keys b ++ [andElem]
        else if fold (AST.func name [a, b]) = none ∧ name = "or"
        then traverseAST fold keys a ++ traverseAST fold keys b ++ [orElem]
        else leafOrConst fold keys (AST.func name [a, b])) = [unknownElem]
      rw [if_neg (fun hand => hn1 hand.2), if_neg (fun hand => hn2 hand.2)]
      exact hleaf
    · exact hleaf
  | ident s => exact hleaf
  | lit v => exact hleaf
  | tup es => exact hleaf

/-- Witness for the amended C2: an identifier that is not a key column
(here with an empty key list and a fold oracle that never folds) compiles
to exactly the Unknown atom. -/
theorem claim_C2_conservatism_witness :
    isConnectiveShape (AST.ident "x") = false
    ∧ atomFromAST (fun _ => none) [] (AST.ident "x") = none
    ∧ ((fun (_ : AST) => none) : AST → Option Int) (AST.ident "x") = none
    ∧ traverseAST (fun _ => none) [] (AST.ident "x") = [unknownElem] :=
  ⟨rfl, rfl, rfl,
   (claim_C2_conservatism (fun _ => none) [] (AST.ident "x") rfl rfl rfl).1⟩

end DB
